import Mathlib

/-!
Verification of the 100cims contour pipeline.

This file is a shallow embedding of the repository's Python sources
(`mergeDXF.py`, `src/data_maps.py`, `src/data_processing.py`) together
with proofs about the embedded operations.

Modelling conventions:
* DXF entities and file paths are identified by natural-number ids.
* `ezdxf.readfile` is modelled by a function `Nat → Option DxfFile`;
  `none` means the read raises (missing or unreadable file).
* Coordinates, areas and altitudes are rationals (the Python floats are
  used only through ordinary field arithmetic and comparisons here).
-/

namespace Cims

/-- A per-band DXF file, as consumed by `combine_dxf_files`: the entity
ids found by the three queries it performs (`LWPOLYLINE` on layer
"Boundaries", `LWPOLYLINE` on layer "Margin", `CIRCLE` on layer
"Crosses"). -/
structure DxfFile where
  boundaries : List Nat
  margins : List Nat
  crosses : List Nat
  deriving DecidableEq, Repr

/-- Python `range(0, stop, step)` for `step ≥ 1`: the ascending list of
the multiples of `step` below `stop`; per Python's documented semantics
its length is the ceiling of `stop / step`, i.e. `(stop + step - 1) / step`. -/
def pyRange (stop step : Nat) : List Nat :=
  List.range' 0 ((stop + step - 1) / step) step

/-- The index of the end file chosen by `merge_dxf_files_by_gap` for the
group starting at index `i`: the source does
`try: selected = [files[i], files[i + w]] except: [files[i], files[len - 1]]`,
so the end index is `i + w` when that index exists and `L - 1` otherwise. -/
def endIndexOf (L w i : Nat) : Nat :=
  if i + w < L then i + w else L - 1

/-- The (start index, end index) pairs of the composite groups formed by
`merge_dxf_files_by_gap` over a sequence of length `L` with window `w`. -/
def gapGroups (L w : Nat) : List (Nat × Nat) :=
  (pyRange L w).map (fun i => (i, endIndexOf L w i))

/-- The four layers added to every combined document by
`combine_dxf_files`, with their colors, in creation order. -/
def combinedLayers : List (String × Nat) :=
  [("Boundaries_start", 7), ("Boundaries_end", 5), ("Crosses", 1), ("Margin", 3)]

/-- A combined document produced by `combine_dxf_files`: its layer table
and the entity ids copied onto each destination layer. -/
structure Composite where
  layers : List (String × Nat)
  boundariesStart : List Nat
  boundariesEnd : List Nat
  margin : List Nat
  crosses : List Nat
  deriving DecidableEq, Repr

/-- Model of `combine_dxf_files(selected_files, output_file, all_dxf_files)` with
`selected_files = [startP, endP]`.  It creates the four fixed layers,
copies the start file's "Boundaries" entities onto "Boundaries_start"
and its "Margin" entities onto "Margin", copies the end file's
"Boundaries" entities onto "Boundaries_end", and then copies the
"Crosses" circles of every file of `allFiles` from
`all_dxf_files.index(startP)` through the end of the sequence.
Any failing read makes the whole call fail (the Python exception
propagates out of the function). -/
def combine_dxf_files (read : Nat → Option DxfFile) (startP endP : Nat)
    (allFiles : List Nat) : Option Composite := do
  let startDoc ← read startP
  let endDoc ← read endP
  let docs ← (allFiles.drop (allFiles.indexOf startP)).mapM read
  pure { layers := combinedLayers
         boundariesStart := startDoc.boundaries
         boundariesEnd := endDoc.boundaries
         margin := startDoc.margins
         crosses := (docs.map (fun d => d.crosses)).flatten }

/-- The merge loop of `merge_dxf_files_by_gap`: composites are saved one
by one in group order; the first failing `combine_dxf_files` call raises
and terminates the whole loop (second component `false`), leaving the
already-saved composites behind. -/
def mergeLoop (read : Nat → Option DxfFile) (files : List Nat) :
    List (Nat × Nat) → List Composite × Bool
  | [] => ([], true)
  | g :: rest =>
    match combine_dxf_files read (files.getD g.1 0) (files.getD g.2 0) files with
    | none => ([], false)
    | some c =>
      let r := mergeLoop read files rest
      (c :: r.1, r.2)

/-- Outcome of a run of `merge_dxf_files_by_gap`: whether the output
directory was created, the composites actually saved (in order), and
whether the loop ran to completion (`false` = an exception escaped). -/
structure MergeOutcome where
  dirCreated : Bool
  composites : List Composite
  completed : Bool
  deriving DecidableEq, Repr

/-- Model of `merge_dxf_files_by_gap(dxf_files, gap, output_directory)`.
The window is `gap // 50` (floor division, no validation); the output
directory is created unconditionally before the loop; when the window
is `0`, Python's `range(0, L, 0)` raises `ValueError` right after the
`mkdir`, so nothing is merged and the stage ends abnormally. -/
def merge_dxf_files_by_gap (read : Nat → Option DxfFile) (files : List Nat)
    (gap : Nat) : MergeOutcome :=
  let w := gap / 50
  if w = 0 then { dirCreated := true, composites := [], completed := false }
  else
    let r := mergeLoop read files (gapGroups files.length w)
    { dirCreated := true, composites := r.1, completed := r.2 }

/-! ## `src/data_maps.py` -/

/-- A hull polygon as used by `plot_concave_hull`: an id standing for
its exterior coordinate sequence, and its shapely `area`. -/
structure Poly where
  pid : Nat
  area : ℚ
  deriving DecidableEq, Repr

/-- The result of `alphashape.alphashape(points, alpha)`, as the
`isinstance` dispatch in `plot_concave_hull` sees it: a shapely
`MultiPolygon` (list of polygons), a single `Polygon`, or anything
else (empty / degenerate geometry), which matches neither branch. -/
inductive Hull where
  | multi : List Poly → Hull
  | single : Poly → Hull
  | degenerate : Hull
  deriving DecidableEq, Repr

/-- The polygons `plot_concave_hull` keeps for smoothing and export, in
order: in the `MultiPolygon` branch a polygon survives iff
`polygon.area > area_threshold`; in the single-`Polygon` branch the
polygon is kept with no area check; otherwise nothing is appended. -/
def keptBoundaries (hull : Hull) (area_threshold : ℚ) : List Poly :=
  match hull with
  | .multi ps => ps.filter (fun p => area_threshold < p.area)
  | .single p => [p]
  | .degenerate => []

/-- The `(idx, area_threshold)` pairs realised by the loop
`for idx, category in enumerate(sorted_categories[start:end], start=start)`:
`area_threshold` is initialised to `4.0` before the loop and decremented
by `0.02` at the end of each iteration.  First argument: the first `idx`
value; second: the number of iterations; third: the current threshold. -/
def thresholdSeq : Nat → Nat → ℚ → List (Nat × ℚ)
  | _, 0, _ => []
  | idx, n + 1, t => (idx, t) :: thresholdSeq (idx + 1) n (t - 1/50)

/-- The `(idx, area_threshold)` pairs of a `plot_concave_hull` run that
processes `n` bands starting at sort index `start`. -/
def loopThresholds (start n : Nat) : List (Nat × ℚ) :=
  thresholdSeq start n 4

/-- Model of `np.linspace(0, 1, 500)` from `smooth_boundary`: 500 evenly spaced
parameter values from 0 to 1 inclusive. -/
def u_fine : List ℚ :=
  (List.range 500).map (fun i : ℕ => (i : ℚ) / 499)

/-- Model of `smooth_boundary(x, y, smoothing_factor)`, parametrised by the
spline evaluator `spl` that `splprep`/`splev` fit to the input points
(the fit itself is scipy's, external to this repository): the spline is
sampled at `u_fine` and the first sample is appended to close the
polygon. -/
def smooth_boundary (spl : ℚ → ℚ × ℚ) : List (ℚ × ℚ) :=
  let pts := u_fine.map spl
  pts ++ [pts.headD (spl 0)]

/-- One row of the `data` DataFrame as `plot_concave_hull` uses it:
coordinates, the band label assigned by `categorize_and_sort`, and the
optional `nom` attribute (`none` models a NaN / missing name). -/
structure DataRow where
  longitude : ℚ
  latitude : ℚ
  category : String
  nom : Option String
  deriving DecidableEq, Repr

/-- Model of `category_data = data[data['category'].isin(subsequent_categories)]`
with `subsequent_categories = sorted_categories[idx:]`. -/
def categoryData (data : List DataRow) (sorted_categories : List String)
    (idx : Nat) : List DataRow :=
  data.filter (fun r => (sorted_categories.drop idx).contains r.category)

/-- The marker coordinates `all_red_crosses` collected for the band at
sort index `idx`: the cumulative `category_data` is narrowed to the rows
whose `category` equals the current band label, then to the rows whose
`nom` is non-null, and their coordinates are collected in order. -/
def collectCrosses (data : List DataRow) (sorted_categories : List String)
    (idx : Nat) : List (ℚ × ℚ) :=
  let category := sorted_categories.getD idx ""
  let category_peak_data :=
    (categoryData data sorted_categories idx).filter (fun r => r.category == category)
  ((category_peak_data.filter (fun r => r.nom.isSome)).map
    (fun r => (r.longitude, r.latitude)))

/-- A CIRCLE entity written by `save_combined_to_dxf`. -/
structure Circle where
  center : ℚ × ℚ
  radius : ℚ
  layer : String
  deriving DecidableEq, Repr

/-- The circles `save_combined_to_dxf` adds for the `crosses` argument:
one circle of radius 0.5 on layer "Crosses" per collected coordinate. -/
def crossCircles (crosses : List (ℚ × ℚ)) : List Circle :=
  crosses.map (fun c => { center := c, radius := 1/2, layer := "Crosses" })

/-! ## `src/data_processing.py` -/

/-- The numeric band assigned to an altitude by `categorize_and_sort`:
`(altitude // bin_size) * bin_size` with `bin_size = 50`
(Python `//` on floats is the mathematical floor). -/
def bandOf (alt : ℚ) : ℤ :=
  50 * ⌊alt / 50⌋

/-- The altitudes of the data points falling in band `b`. -/
def bandMembers (data : List ℚ) (b : ℤ) : List ℚ :=
  data.filter (fun a => decide (bandOf a = b))

/-- Model of `data.groupby('category')['altitude'].mean()` for one category:
the mean of a list of altitudes. -/
def listMean (l : List ℚ) : ℚ :=
  l.sum / l.length

/-! ## Claims about the hull area filter (C3) -/

/-- C3 counterexample: the claim says every polygon of the hull result
with `area ≤ threshold` is excluded from the band's output, whether the
hull is a single polygon or a multi-polygon; but the single-`Polygon`
branch of `plot_concave_hull` performs no area check, so a lone polygon
of area 0 is kept even against the initial threshold 4.0. -/
theorem single_polygon_bypasses_area_filter :
    (⟨0, 0⟩ : Poly) ∈ keptBoundaries (Hull.single ⟨0, 0⟩) 4 ∧
      ¬ ((4 : ℚ) < (⟨0, 0⟩ : Poly).area) := by
  constructor
  · simp [keptBoundaries]
  · decide

/-- C3 amended: the area filter applies exactly to the polygons of a
`MultiPolygon` hull (a polygon survives iff its area strictly exceeds
the threshold), while a single-`Polygon` hull is always kept, with no
area check at all. -/
theorem area_filter_multipolygon_only (ps : List Poly) (t : ℚ) (p : Poly) :
    (p ∈ keptBoundaries (Hull.multi ps) t ↔ p ∈ ps ∧ t < p.area) ∧
      keptBoundaries (Hull.single p) t = [p] := by
  constructor
  · simp [keptBoundaries]
  · rfl

/-! ## Claims about the threshold progression (C4) -/

/-- Closed form of the loop's `(idx, area_threshold)` pairs: the `k`-th
processed band has index `idx₀ + k` and threshold `t₀ - 0.02 * k`. -/
theorem thresholdSeq_getD (n : Nat) : ∀ (idx k : Nat) (t : ℚ), k < n →
    (thresholdSeq idx n t).getD k (0, 0) = (idx + k, t - (1/50) * k) := by
  induction n with
  | zero => intro idx k t hk; omega
  | succ n ih =>
    intro idx k t hk
    cases k with
    | zero => simp [thresholdSeq]
    | succ k =>
      have hk' : k < n := by omega
      have := ih (idx + 1) k (t - 1/50) hk'
      simp only [thresholdSeq, List.getD_cons_succ, this, Prod.mk.injEq]
      refine ⟨by omega, by push_cast; ring⟩

/-- C4 counterexample: the claim says the band at sort index `i` is
always filtered with threshold `4.0 - 0.02 * i`, for every processing
start index; but `area_threshold` is initialised to `4.0` regardless of
`start`, so a run with `start = 1` filters the band at sort index 1
with threshold `4.0`, not `4.0 - 0.02 = 3.98`. -/
theorem threshold_ignores_start_index :
    (loopThresholds 1 1).getD 0 (0, 0) = (1, 4) ∧
      ((4 : ℚ) ≠ 4 - (1/50) * 1) := by
  constructor
  · rfl
  · norm_num

/-- C4 amended: the threshold is strictly decreasing in steps of exactly
0.02 across the processed bands, and the band processed `k`-th (i.e. at
sort index `start + k`) is filtered with threshold `4.0 - 0.02 * k` —
the offset is counted from the processing start index, not from the
beginning of the full sorted band list (the two agree when
`start = 0`, the value used by `main.py`). -/
theorem threshold_decreases_from_start (start n k : Nat) (hk : k < n) :
    (loopThresholds start n).getD k (0, 0) = (start + k, 4 - (1/50) * (k : ℚ)) ∧
      (k + 1 < n →
        ((loopThresholds start n).getD (k + 1) (0, 0)).2 =
          ((loopThresholds start n).getD k (0, 0)).2 - 1/50) := by
  constructor
  · exact thresholdSeq_getD n start k 4 hk
  · intro hk1
    simp only [loopThresholds]
    rw [thresholdSeq_getD n start k 4 hk, thresholdSeq_getD n start (k + 1) 4 hk1]
    push_cast
    ring

/-- Witness for the amended C4 theorem at `start = 0`, `n = 2`,
`k = 0`. -/
theorem threshold_decreases_from_start_witness :
    (loopThresholds 0 2).getD 0 (0, 0) = (0 + 0, 4 - (1/50) * ((0 : Nat) : ℚ)) ∧
      (0 + 1 < 2 →
        ((loopThresholds 0 2).getD (0 + 1) (0, 0)).2 =
          ((loopThresholds 0 2).getD 0 (0, 0)).2 - 1/50) :=
  threshold_decreases_from_start 0 2 0 (by decide)

/-- Witness for the amended C3 theorem on a concrete two-polygon
multi-hull. -/
theorem area_filter_multipolygon_only_witness :
    ((⟨1, 5⟩ : Poly) ∈ keptBoundaries (Hull.multi [⟨1, 5⟩, ⟨2, 1⟩]) 4 ↔
        (⟨1, 5⟩ : Poly) ∈ [(⟨1, 5⟩ : Poly), ⟨2, 1⟩] ∧ (4 : ℚ) < (⟨1, 5⟩ : Poly).area) ∧
      keptBoundaries (Hull.single ⟨1, 5⟩) 4 = [⟨1, 5⟩] :=
  area_filter_multipolygon_only [⟨1, 5⟩, ⟨2, 1⟩] 4 ⟨1, 5⟩

/-! ## Claim about the composite layer table (C10) -/

/-- C10: every composite document that `combine_dxf_files` actually
produces carries exactly the four layers "Boundaries_start" (color 7),
"Boundaries_end" (color 5), "Crosses" (color 1) and "Margin" (color 3),
created unconditionally before any entity is copied, independently of
the input files' contents. -/
theorem composite_layer_table_fixed (read : Nat → Option DxfFile)
    (startP endP : Nat) (allFiles : List Nat) (c : Composite)
    (h : combine_dxf_files read startP endP allFiles = some c) :
    c.layers =
      [("Boundaries_start", 7), ("Boundaries_end", 5), ("Crosses", 1), ("Margin", 3)] := by
  simp only [combine_dxf_files, bind, Option.bind_eq_some, pure, Option.some.injEq] at h
  obtain ⟨s, _, e, _, ds, _, hc⟩ := h
  rw [← hc]
  rfl

/-- Witness for C10 on a concrete successful combine. -/
theorem composite_layer_table_fixed_witness :
    (⟨combinedLayers, [], [], [], []⟩ : Composite).layers =
      [("Boundaries_start", 7), ("Boundaries_end", 5), ("Crosses", 1), ("Margin", 3)] :=
  composite_layer_table_fixed (fun _ => some ⟨[], [], []⟩) 0 0 [0]
    ⟨combinedLayers, [], [], [], []⟩ (by rfl)

/-! ## Claim about the geometry smoother (C5) -/

/-- For every list, `headD` is `getD` at index 0. -/
theorem headD_eq_getD_zero {α : Type} (l : List α) (d : α) :
    l.headD d = l.getD 0 d := by
  cases l <;> rfl

/-- C5: for every spline evaluator the fit produces (the `splprep` fit
itself is scipy's, i.e. external), `smooth_boundary` returns a closed
curve of exactly 501 points: point 500 equals point 0; points 0..499
are the spline evaluated at the 500 parameter values of
`np.linspace(0, 1, 500)`; and those values are evenly spaced in
`[0, 1]`: the `i`-th is `i / 499`, the first is 0, the last is 1, and
consecutive values differ by exactly `1 / 499`. -/
theorem smooth_boundary_closed_501 (spl : ℚ → ℚ × ℚ) :
    (smooth_boundary spl).length = 501 ∧
      (smooth_boundary spl).getD 500 (0, 0) = (smooth_boundary spl).getD 0 (0, 0) ∧
      (∀ i, i < 500 → (smooth_boundary spl).getD i (0, 0) = spl (u_fine.getD i 0)) ∧
      u_fine.length = 500 ∧
      (∀ i, i < 500 → u_fine.getD i 0 = (i : ℚ) / 499) ∧
      u_fine.getD 0 0 = 0 ∧ u_fine.getD 499 0 = 1 ∧
      (∀ i, i + 1 < 500 → u_fine.getD (i + 1) 0 - u_fine.getD i 0 = 1 / 499) := by
  have hu_len : u_fine.length = 500 := by
    rw [u_fine, List.length_map, List.length_range]
  have hlen : (u_fine.map spl).length = 500 := by
    rw [List.length_map, hu_len]
  have hu : ∀ i, i < 500 → u_fine.getD i 0 = (i : ℚ) / 499 := by
    intro i hi
    have hi' : i < u_fine.length := by omega
    rw [List.getD_eq_getElem _ _ hi']
    simp only [u_fine, List.getElem_map, List.getElem_range]
  have hsample : ∀ i, i < 500 →
      (smooth_boundary spl).getD i (0, 0) = spl (u_fine.getD i 0) := by
    intro i hi
    have hi' : i < (u_fine.map spl).length := by omega
    rw [smooth_boundary, List.getD_append _ _ _ _ hi', List.getD_eq_getElem _ _ hi']
    have hiu : i < u_fine.length := by omega
    rw [List.getElem_map, List.getD_eq_getElem _ _ hiu]
  refine ⟨?_, ?_, hsample, hu_len, hu, ?_, ?_, ?_⟩
  · rw [smooth_boundary]
    simp only [List.length_append, List.length_map, List.length_cons, List.length_nil, hu_len]
  · have h500 : (smooth_boundary spl).getD 500 (0, 0) = (u_fine.map spl).headD (spl 0) := by
      rw [smooth_boundary, List.getD_append_right _ _ _ _ (by omega)]
      simp only [hlen]
      norm_num
    rw [h500, headD_eq_getD_zero, hsample 0 (by omega)]
    have h0 : (u_fine.map spl).getD 0 (spl 0) = spl (u_fine.getD 0 0) := by
      have h0' : (0 : ℕ) < (u_fine.map spl).length := by omega
      have h0u : (0 : ℕ) < u_fine.length := by omega
      rw [List.getD_eq_getElem _ _ h0', List.getElem_map,
        List.getD_eq_getElem _ _ h0u]
    rw [h0]
  · rw [hu 0 (by omega)]; norm_num
  · rw [hu 499 (by omega)]; norm_num
  · intro i hi
    rw [hu i (by omega), hu (i + 1) (by omega)]
    push_cast
    ring

/-- Witness for C5 at the constant spline. -/
theorem smooth_boundary_closed_501_witness :
    (smooth_boundary (fun _ => ((0 : ℚ), (0 : ℚ)))).length = 501 :=
  (smooth_boundary_closed_501 (fun _ => ((0 : ℚ), (0 : ℚ)))).1

/-! ## Claim about marker collection (C6) -/

/-- C6: the markers collected for the band at sort index `idx` are
exactly the data rows of that band itself (not of the cumulative point
set) whose `nom` attribute is non-null, and each one is written to the
"Crosses" layer as a circle of radius 0.5 centered at the row's
coordinates. -/
theorem crosses_are_named_band_points (data : List DataRow)
    (sorted_categories : List String) (idx : Nat)
    (hidx : idx < sorted_categories.length) :
    crossCircles (collectCrosses data sorted_categories idx) =
      ((data.filter (fun r => r.category == sorted_categories.getD idx "")).filter
          (fun r => r.nom.isSome)).map
        (fun r => { center := (r.longitude, r.latitude), radius := 1/2,
                    layer := "Crosses" }) := by
  have hmem : sorted_categories.getD idx "" ∈ sorted_categories.drop idx := by
    rw [List.getD_eq_getElem _ _ hidx]
    have : sorted_categories.drop idx =
        sorted_categories[idx] :: sorted_categories.drop (idx + 1) :=
      List.drop_eq_getElem_cons hidx
    rw [this]
    exact List.mem_cons_self _ _
  have hband : (categoryData data sorted_categories idx).filter
        (fun r => r.category == sorted_categories.getD idx "") =
      data.filter (fun r => r.category == sorted_categories.getD idx "") := by
    rw [categoryData, List.filter_filter]
    apply List.filter_congr
    intro r _
    show ((r.category == sorted_categories.getD idx "") &&
        (sorted_categories.drop idx).contains r.category) =
      (r.category == sorted_categories.getD idx "")
    cases hbe : (r.category == sorted_categories.getD idx "") with
    | false => rw [Bool.false_and]
    | true =>
      rw [Bool.true_and, eq_of_beq hbe]
      exact List.elem_iff.mpr hmem
  rw [crossCircles, collectCrosses]
  simp only [hband, List.map_map]
  rfl

/-- Witness for C6 on a concrete two-row data set. -/
theorem crosses_are_named_band_points_witness :
    crossCircles (collectCrosses
        [⟨1, 2, "0m to 50m", some "Puig"⟩, ⟨3, 4, "50m to 100m", none⟩]
        ["0m to 50m", "50m to 100m"] 0) =
      (([⟨1, 2, "0m to 50m", some "Puig"⟩,
          (⟨3, 4, "50m to 100m", none⟩ : DataRow)].filter
            (fun r => r.category == ["0m to 50m", "50m to 100m"].getD 0 "")).filter
          (fun r => r.nom.isSome)).map
        (fun r => { center := (r.longitude, r.latitude), radius := 1/2,
                    layer := "Crosses" }) :=
  crosses_are_named_band_points
    [⟨1, 2, "0m to 50m", some "Puig"⟩, ⟨3, 4, "50m to 100m", none⟩]
    ["0m to 50m", "50m to 100m"] 0 (by decide)

/-! ## Claims about the gap merger (C1, C7) -/

/-- The iteration count of `range(0, stop, step)`. -/
theorem pyRange_length (stop step : Nat) :
    (pyRange stop step).length = (stop + step - 1) / step := by
  rw [pyRange, List.length_range']

/-- Strides below the ceiling count are exactly those landing below
`stop`. -/
theorem lt_ceil_div_iff (stop step k : Nat) (hstep : 0 < step) :
    k < (stop + step - 1) / step ↔ step * k < stop := by
  rw [← Nat.ceilDiv_eq_add_pred_div, ← not_le, ceilDiv_le_iff_le_smul hstep,
    smul_eq_mul, not_le]

/-- Membership in `range(0, stop, step)`: the multiples of `step` below
`stop`. -/
theorem mem_pyRange (stop step i : Nat) (hstep : 0 < step) :
    i ∈ pyRange stop step ↔ i < stop ∧ step ∣ i := by
  rw [pyRange, List.mem_range']
  constructor
  · rintro ⟨k, hk, rfl⟩
    rw [zero_add]
    exact ⟨(lt_ceil_div_iff stop step k hstep).mp hk, dvd_mul_right step k⟩
  · rintro ⟨hlt, k, rfl⟩
    exact ⟨k, (lt_ceil_div_iff stop step k hstep).mpr hlt, (zero_add _).symm⟩

/-- The `k`-th start index of `range(0, stop, step)` is `step * k`. -/
theorem pyRange_getD (stop step k : Nat) (h : k < (stop + step - 1) / step) :
    (pyRange stop step).getD k 0 = step * k := by
  have h' : k < (pyRange stop step).length := by rw [pyRange_length]; exact h
  rw [List.getD_eq_getElem _ _ h']
  simp only [pyRange, List.getElem_range', zero_add]

/-- The quantity `(L + w - 1) / w` is the rational ceiling of `L / w`. -/
theorem ceil_div_rat (L w : Nat) (hw : 0 < w) :
    (((L + w - 1) / w : ℕ) : ℤ) = ⌈(L : ℚ) / (w : ℚ)⌉ := by
  have hw' : (0 : ℚ) < (w : ℚ) := by exact_mod_cast hw
  rcases Nat.eq_zero_or_pos L with h0 | hL
  · subst h0
    have hz : (0 + w - 1) / w = 0 := Nat.div_eq_of_lt (by omega)
    rw [hz]
    simp
  · have hdm := Nat.div_add_mod (L + w - 1) w
    have hmod : (L + w - 1) % w < w := Nat.mod_lt _ hw
    have key1 : L ≤ w * ((L + w - 1) / w) := by
      generalize hr : (L + w - 1) % w = r at hdm hmod
      generalize hwn : w * ((L + w - 1) / w) = m at hdm ⊢
      omega
    have key2 : w * ((L + w - 1) / w) < L + w := by
      generalize hr : (L + w - 1) % w = r at hdm hmod
      generalize hwn : w * ((L + w - 1) / w) = m at hdm ⊢
      omega
    symm
    rw [Int.ceil_eq_iff]
    have h1 : (L : ℚ) ≤ (w : ℚ) * (((L + w - 1) / w : ℕ) : ℚ) := by
      exact_mod_cast key1
    have h2 : ((w : ℚ)) * (((L + w - 1) / w : ℕ) : ℚ) < (L : ℚ) + w := by
      exact_mod_cast key2
    constructor
    · rw [Int.cast_natCast, lt_div_iff₀ hw']
      have hexp : ((((L + w - 1) / w : ℕ) : ℚ) - 1) * w
          = (w : ℚ) * (((L + w - 1) / w : ℕ) : ℚ) - w := by ring
      rw [hexp]
      linarith
    · rw [Int.cast_natCast, div_le_iff₀ hw']
      have hexp : ((((L + w - 1) / w : ℕ) : ℚ)) * w
          = (w : ℚ) * (((L + w - 1) / w : ℕ) : ℚ) := by ring
      rw [hexp]
      linarith

/-- When every file is readable, `mapM read` succeeds. -/
theorem exists_mapM_eq_some (read : Nat → Option DxfFile)
    (hread : ∀ p, (read p).isSome) (l : List Nat) :
    ∃ ds : List DxfFile, l.mapM read = some ds := by
  induction l with
  | nil => exact ⟨[], rfl⟩
  | cons a t ih =>
    obtain ⟨ds, hds⟩ := ih
    obtain ⟨d, hd⟩ := Option.isSome_iff_exists.mp (hread a)
    refine ⟨d :: ds, ?_⟩
    rw [List.mapM_cons, hd, hds]
    rfl

/-- When every file is readable, `combine_dxf_files` succeeds. -/
theorem combine_isSome (read : Nat → Option DxfFile)
    (hread : ∀ p, (read p).isSome) (s e : Nat) (all : List Nat) :
    ∃ c, combine_dxf_files read s e all = some c := by
  obtain ⟨sd, hs⟩ := Option.isSome_iff_exists.mp (hread s)
  obtain ⟨ed, he⟩ := Option.isSome_iff_exists.mp (hread e)
  obtain ⟨ds, hds⟩ := exists_mapM_eq_some read hread (all.drop (all.indexOf s))
  refine ⟨⟨combinedLayers, sd.boundaries, ed.boundaries, sd.margins,
    (ds.map (fun d => d.crosses)).flatten⟩, ?_⟩
  rw [combine_dxf_files]
  rw [hs, he, hds]
  rfl

/-- When every file is readable, the merge loop saves one composite per
group and terminates normally. -/
theorem mergeLoop_all_success (read : Nat → Option DxfFile) (files : List Nat)
    (hread : ∀ p, (read p).isSome) (gs : List (Nat × Nat)) :
    (mergeLoop read files gs).1.length = gs.length ∧
      (mergeLoop read files gs).2 = true := by
  induction gs with
  | nil => exact ⟨rfl, rfl⟩
  | cons g t ih =>
    obtain ⟨c, hc⟩ := combine_isSome read hread (files.getD g.1 0) (files.getD g.2 0) files
    rw [mergeLoop, hc]
    exact ⟨by simp [ih.1], ih.2⟩

/-- C1: for a readable sequence of `L ≥ 1 files` and a window
`w = gap // 50 ≥ 1`, the gap merger saves exactly `⌈L / w⌉` composite
files, one per group start index in `{0, w, 2w, ...}` below `L`; the
group starting at `i` pairs the start file at index `i` with the end
file at index `i + w` when that index exists and with the last index
`L - 1` otherwise. -/
theorem gap_merger_produces_ceil_groups (read : Nat → Option DxfFile)
    (files : List Nat) (gap : Nat)
    (hL : 1 ≤ files.length) (hw : 1 ≤ gap / 50)
    (hread : ∀ p, (read p).isSome) :
    ((merge_dxf_files_by_gap read files gap).composites.length
        = (files.length + gap / 50 - 1) / (gap / 50)) ∧
      ((((files.length + gap / 50 - 1) / (gap / 50) : ℕ) : ℤ)
        = ⌈(files.length : ℚ) / ((gap / 50 : ℕ) : ℚ)⌉) ∧
      (∀ i : Nat, (∃ e, (i, e) ∈ gapGroups files.length (gap / 50)) ↔
        i < files.length ∧ (gap / 50) ∣ i) ∧
      (∀ i e : Nat, (i, e) ∈ gapGroups files.length (gap / 50) →
        e = if i + gap / 50 < files.length then i + gap / 50
            else files.length - 1) := by
  have hw0 : ¬ (gap / 50 = 0) := by omega
  refine ⟨?_, ceil_div_rat files.length (gap / 50) (by omega), ?_, ?_⟩
  · rw [merge_dxf_files_by_gap]
    simp only [hw0, if_false]
    rw [(mergeLoop_all_success read files hread (gapGroups files.length (gap / 50))).1]
    rw [gapGroups, List.length_map, pyRange_length]
  · intro i
    constructor
    · rintro ⟨e, he⟩
      rw [gapGroups, List.mem_map] at he
      obtain ⟨a, ha, hae⟩ := he
      obtain ⟨rfl, rfl⟩ : a = i ∧ endIndexOf files.length (gap / 50) a = e := by
        exact ⟨congrArg Prod.fst hae, congrArg Prod.snd hae⟩
      exact (mem_pyRange files.length (gap / 50) a (by omega)).mp ha
    · intro hi
      refine ⟨endIndexOf files.length (gap / 50) i, ?_⟩
      rw [gapGroups, List.mem_map]
      exact ⟨i, (mem_pyRange files.length (gap / 50) i (by omega)).mpr hi, rfl⟩
  · intro i e he
    rw [gapGroups, List.mem_map] at he
    obtain ⟨a, _, hae⟩ := he
    obtain ⟨rfl, rfl⟩ : a = i ∧ endIndexOf files.length (gap / 50) a = e := by
      exact ⟨congrArg Prod.fst hae, congrArg Prod.snd hae⟩
    rfl

/-- Witness for C1 on the spec's scenario: 7 files, `gap = 100`,
window 2, hence 4 composite groups. -/
theorem gap_merger_produces_ceil_groups_witness :
    (merge_dxf_files_by_gap (fun _ => some ⟨[], [], []⟩)
        [0, 1, 2, 3, 4, 5, 6] 100).composites.length
      = (7 + 100 / 50 - 1) / (100 / 50) :=
  (gap_merger_produces_ceil_groups (fun _ => some ⟨[], [], []⟩)
    [0, 1, 2, 3, 4, 5, 6] 100 (by decide) (by decide) (fun _ => rfl)).1

/-! ## Claim about crosses accumulation (C2) -/

/-- Running `mapM` over `Option` succeeds exactly on the pointwise read
relation. -/
theorem mapM_eq_some_iff (read : Nat → Option DxfFile) :
    ∀ (l : List Nat) (ds : List DxfFile),
      l.mapM read = some ds ↔
        List.Forall₂ (fun p d => read p = some d) l ds := by
  intro l
  induction l with
  | nil =>
    intro ds
    constructor
    · intro h
      rw [List.mapM_nil] at h
      obtain rfl : ([] : List DxfFile) = ds := Option.some.inj h
      exact List.Forall₂.nil
    · intro h
      cases h
      rfl
  | cons a t ih =>
    intro ds
    rw [List.mapM_cons]
    constructor
    · intro h
      simp only [bind, Option.bind_eq_some, pure, Option.some.injEq] at h
      obtain ⟨d, hd, ds', hds', hcons⟩ := h
      rw [← hcons]
      exact List.Forall₂.cons hd ((ih ds').mp hds')
    · intro h
      cases h with
      | cons hab htu =>
        rw [hab, (ih _).mpr htu]
        rfl

/-- Transport of an existential along the pointwise read relation. -/
theorem forall₂_crosses_mem (read : Nat → Option DxfFile) (x : Nat) :
    ∀ (l : List Nat) (ds : List DxfFile),
      List.Forall₂ (fun p d => read p = some d) l ds →
      ((∃ d ∈ ds, x ∈ d.crosses) ↔
        ∃ p ∈ l, ∃ d, read p = some d ∧ x ∈ d.crosses) := by
  intro l ds h
  induction h with
  | nil => simp
  | cons hab htu ih =>
    constructor
    · rintro ⟨d, hd, hx⟩
      rcases List.mem_cons.mp hd with rfl | hd'
      · exact ⟨_, List.mem_cons_self _ _, d, hab, hx⟩
      · obtain ⟨p, hp, d', hd', hx'⟩ := ih.mp ⟨d, hd', hx⟩
        exact ⟨p, List.mem_cons_of_mem _ hp, d', hd', hx'⟩
    · rintro ⟨p, hp, d, hd, hx⟩
      rcases List.mem_cons.mp hp with rfl | hp'
      · rw [hab] at hd
        obtain rfl := Option.some.inj hd
        exact ⟨_, List.mem_cons_self _ _, hx⟩
      · obtain ⟨d', hd', hx'⟩ := ih.mpr ⟨p, hp', d, hd, hx⟩
        exact ⟨d', List.mem_cons_of_mem _ hd', hx'⟩

/-- Membership in a `drop` as indexed membership in the whole list. -/
theorem mem_drop_iff_getElem (all : List Nat) (i p : Nat) :
    p ∈ all.drop i ↔
      ∃ j, i ≤ j ∧ ∃ hj : j < all.length, all[j] = p := by
  constructor
  · intro hp
    obtain ⟨k, hk, hkp⟩ := List.mem_iff_getElem.mp hp
    have hk' : i + k < all.length := by
      rw [List.length_drop] at hk
      omega
    refine ⟨i + k, by omega, hk', ?_⟩
    rw [List.getElem_drop' all hk']
    exact hkp
  · rintro ⟨j, hij, hj, rfl⟩
    have hj' : i + (j - i) < all.length := by omega
    refine List.mem_iff_getElem.mpr ⟨j - i, ?_, ?_⟩
    · rw [List.length_drop]
      omega
    · rw [← List.getElem_drop' all hj']
      congr 1
      omega

/-- C2: when `combine_dxf_files` succeeds for a group whose start file
sits at index `i` of the (duplicate-free) file sequence, the
composite's "Crosses" layer holds exactly the union of the "Crosses"
circles of every file from index `i` through the last file of the whole
sequence — not only the files inside the current window. -/
theorem composite_crosses_accumulate (read : Nat → Option DxfFile)
    (allFiles : List Nat) (hnd : allFiles.Nodup) (i : Nat)
    (hi : i < allFiles.length) (endP : Nat) (c : Composite)
    (hc : combine_dxf_files read allFiles[i] endP allFiles = some c)
    (x : Nat) :
    x ∈ c.crosses ↔
      ∃ j, i ≤ j ∧ ∃ hj : j < allFiles.length,
        ∃ d, read allFiles[j] = some d ∧ x ∈ d.crosses := by
  simp only [combine_dxf_files, bind, Option.bind_eq_some, pure,
    Option.some.injEq] at hc
  obtain ⟨sd, hs, ed, he, ds, hds, hrec⟩ := hc
  have hidx : allFiles.indexOf allFiles[i] = i :=
    List.indexOf_getElem hnd i hi
  rw [hidx] at hds
  have hx : x ∈ c.crosses ↔ ∃ d ∈ ds, x ∈ d.crosses := by
    rw [← hrec]
    simp only [List.mem_flatten, List.mem_map]
    constructor
    · rintro ⟨cs, ⟨d, hd, rfl⟩, hx⟩
      exact ⟨d, hd, hx⟩
    · rintro ⟨d, hd, hx⟩
      exact ⟨d.crosses, ⟨d, hd, rfl⟩, hx⟩
  rw [hx, forall₂_crosses_mem read x _ _ ((mapM_eq_some_iff read _ _).mp hds)]
  constructor
  · rintro ⟨p, hp, d, hd, hxd⟩
    obtain ⟨j, hij, hj, rfl⟩ := (mem_drop_iff_getElem allFiles i p).mp hp
    exact ⟨j, hij, hj, d, hd, hxd⟩
  · rintro ⟨j, hij, hj, d, hd, hxd⟩
    refine ⟨allFiles[j], (mem_drop_iff_getElem allFiles i _).mpr ⟨j, hij, hj, rfl⟩,
      d, hd, hxd⟩

/-- Witness for C2: two files with distinct crosses, group starting at
index 0; the cross of the second (out-of-window) file is in the
composite. -/
theorem composite_crosses_accumulate_witness :
    (11 : Nat) ∈ (⟨combinedLayers, [], [], [], [10, 11]⟩ : Composite).crosses ↔
      ∃ j, 0 ≤ j ∧ ∃ hj : j < ([10, 11] : List Nat).length,
        ∃ d, (fun p => some (⟨[], [], [p]⟩ : DxfFile)) (([10, 11] : List Nat)[j])
            = some d ∧ (11 : Nat) ∈ d.crosses :=
  composite_crosses_accumulate (fun p => some ⟨[], [], [p]⟩) [10, 11]
    (by decide) 0 (by decide) 10 ⟨combinedLayers, [], [], [], [10, 11]⟩
    (by rfl) 11

/-- C7 counterexample: the claim says a `gap` that is not a positive
multiple of 50 aborts the merge stage with a `ConfigError` before any
output is written; but with `gap = 75` (not a multiple of 50) the code
silently floors the window to `75 // 50 = 1` and writes one composite
per file, completing normally. -/
theorem invalid_gap_not_rejected :
    ¬ (50 ∣ 75) ∧
      (merge_dxf_files_by_gap (fun _ => some ⟨[], [], []⟩)
          [0, 1] 75).composites.length = 2 ∧
      (merge_dxf_files_by_gap (fun _ => some ⟨[], [], []⟩)
          [0, 1] 75).completed = true := by
  refine ⟨by decide, ?_, ?_⟩ <;> rfl

/-- C7 amended: the merge stage validates nothing.  When
`gap // 50 = 0` (i.e. `gap < 50`) the loop constructor raises an
uncaught `ValueError` — not a `ConfigError` — after the output
directory has already been created, with no composite written; when
`gap // 50 ≥ 1` the merge proceeds even if `gap` is not a multiple of
50 and, with readable files, writes its composites; an empty file
sequence is not rejected either: the loop body never runs and the stage
completes normally with no output.  The output directory is created
unconditionally in every case. -/
theorem merge_stage_has_no_config_validation (read : Nat → Option DxfFile)
    (files : List Nat) (gap : Nat) :
    (gap / 50 = 0 →
      merge_dxf_files_by_gap read files gap =
        { dirCreated := true, composites := [], completed := false }) ∧
      (1 ≤ gap / 50 → (∀ p, (read p).isSome) → 1 ≤ files.length →
        (merge_dxf_files_by_gap read files gap).composites.length
            = (files.length + gap / 50 - 1) / (gap / 50) ∧
          (merge_dxf_files_by_gap read files gap).completed = true) ∧
      (files = [] → 1 ≤ gap / 50 →
        merge_dxf_files_by_gap read files gap =
          { dirCreated := true, composites := [], completed := true }) ∧
      (merge_dxf_files_by_gap read files gap).dirCreated = true := by
  refine ⟨?_, ?_, ?_, ?_⟩
  · intro h
    rw [merge_dxf_files_by_gap]
    simp only [h, if_true]
  · intro hw hread _
    have hw0 : ¬ (gap / 50 = 0) := by omega
    constructor
    · rw [merge_dxf_files_by_gap]
      simp only [hw0, if_false]
      rw [(mergeLoop_all_success read files hread
        (gapGroups files.length (gap / 50))).1]
      rw [gapGroups, List.length_map, pyRange_length]
    · rw [merge_dxf_files_by_gap]
      simp only [hw0, if_false]
      exact (mergeLoop_all_success read files hread
        (gapGroups files.length (gap / 50))).2
  · rintro rfl hw
    have hw0 : ¬ (gap / 50 = 0) := by omega
    have hz : (0 + gap / 50 - 1) / (gap / 50) = 0 := Nat.div_eq_of_lt (by omega)
    have hg : gapGroups ([] : List Nat).length (gap / 50) = [] := by
      rw [gapGroups, pyRange]
      simp only [List.length_nil]
      rw [hz]
      rfl
    rw [merge_dxf_files_by_gap]
    simp only [hw0, if_false, hg]
    rfl
  · by_cases h : gap / 50 = 0 <;> simp [merge_dxf_files_by_gap, h]

/-- Witness for the amended C7 theorem: `gap = 30` aborts abnormally
after the directory is created; the empty sequence completes normally. -/
theorem merge_stage_has_no_config_validation_witness :
    merge_dxf_files_by_gap (fun _ => some ⟨[], [], []⟩) [0] 30 =
        { dirCreated := true, composites := [], completed := false } ∧
      merge_dxf_files_by_gap (fun _ => some ⟨[], [], []⟩) [] 100 =
        { dirCreated := true, composites := [], completed := true } :=
  ⟨(merge_stage_has_no_config_validation (fun _ => some ⟨[], [], []⟩) [0] 30).1
      (by decide),
    (merge_stage_has_no_config_validation (fun _ => some ⟨[], [], []⟩) [] 100).2.2.1
      rfl (by decide)⟩

/-! ## Claim about per-group failure recovery (C8) -/

/-- C8 counterexample: the claim says a read failure aborts only the
affected composite group and the loop continues with the next window;
but with files `[0, 1, 2, 3]`, `gap = 100` and file 1 unreadable, the
group starting at index 2 — all of whose referenced files are readable,
as its successful `combine_dxf_files` run shows — is never reached: the
failure inside the first group's crosses pass propagates and the merge
ends with no composite at all and `completed = false`. -/
theorem read_failure_terminates_merge_loop :
    combine_dxf_files
        (fun p => if p = 1 then none else some ⟨[p], [p], [p]⟩) 2 3 [0, 1, 2, 3]
      = some ⟨combinedLayers, [2], [3], [2], [2, 3]⟩ ∧
      merge_dxf_files_by_gap
          (fun p => if p = 1 then none else some ⟨[p], [p], [p]⟩) [0, 1, 2, 3] 100
        = { dirCreated := true, composites := [], completed := false } := by
  exact ⟨rfl, rfl⟩

/-- C8 amended: the first group whose `combine_dxf_files` call fails
terminates the entire merge loop at that point: the composites of the
earlier groups remain saved, and no later window is processed — not
even windows none of whose referenced files are unreadable.  There is
no `MergeError`-style per-group recovery. -/
theorem merge_aborts_at_first_failing_group (read : Nat → Option DxfFile)
    (files : List Nat) :
    ∀ (gs : List (Nat × Nat)) (k : Nat), k < gs.length →
      (∀ m, m < k → ∃ cm, combine_dxf_files read (files.getD (gs.getD m (0, 0)).1 0)
          (files.getD (gs.getD m (0, 0)).2 0) files = some cm) →
      combine_dxf_files read (files.getD (gs.getD k (0, 0)).1 0)
          (files.getD (gs.getD k (0, 0)).2 0) files = none →
      (mergeLoop read files gs).2 = false ∧
        (mergeLoop read files gs).1.length = k := by
  intro gs
  induction gs with
  | nil =>
    intro k hk _ _
    simp at hk
  | cons g t ih =>
    intro k hk hprev hfail
    cases k with
    | zero =>
      simp only [List.getD_cons_zero] at hfail
      rw [mergeLoop, hfail]
      exact ⟨rfl, rfl⟩
    | succ k =>
      obtain ⟨c0, hc0⟩ := hprev 0 (by omega)
      simp only [List.getD_cons_zero] at hc0
      have hprev' : ∀ m, m < k →
          ∃ cm, combine_dxf_files read (files.getD (t.getD m (0, 0)).1 0)
            (files.getD (t.getD m (0, 0)).2 0) files = some cm := by
        intro m hm
        have h := hprev (m + 1) (by omega)
        simpa only [List.getD_cons_succ] using h
      have hfail' : combine_dxf_files read (files.getD (t.getD k (0, 0)).1 0)
          (files.getD (t.getD k (0, 0)).2 0) files = none := by
        simpa only [List.getD_cons_succ] using hfail
      have hk' : k < t.length := by
        simp only [List.length_cons] at hk
        omega
      obtain ⟨h2, h1⟩ := ih k hk' hprev' hfail'
      rw [mergeLoop, hc0]
      exact ⟨h2, by simp [h1]⟩

/-- Witness for the amended C8 theorem on a one-group list whose only
combine fails. -/
theorem merge_aborts_at_first_failing_group_witness :
    (mergeLoop (fun _ => none) [0] [(0, 0)]).2 = false ∧
      (mergeLoop (fun _ => none) [0] [(0, 0)]).1.length = 0 :=
  merge_aborts_at_first_failing_group (fun _ => none) [0] [(0, 0)] 0
    (by decide) (fun m hm => absurd hm (by omega)) rfl

/-! ## Claim about band ordering (C9) -/

/-- Every altitude lies in `[b, b + 50)` for its own band `b`. -/
theorem bandOf_bounds (a : ℚ) :
    ((bandOf a : ℤ) : ℚ) ≤ a ∧ a < ((bandOf a : ℤ) : ℚ) + 50 := by
  have h50 : (0 : ℚ) < 50 := by norm_num
  have h1 : ((⌊a / 50⌋ : ℤ) : ℚ) ≤ a / 50 := Int.floor_le _
  have h2 : a / 50 < ((⌊a / 50⌋ : ℤ) : ℚ) + 1 := Int.lt_floor_add_one _
  rw [bandOf]
  push_cast
  constructor
  · have := (le_div_iff₀ h50).mp h1
    linarith
  · have := (div_lt_iff₀ h50).mp h2
    linarith

/-- Band membership, unfolded. -/
theorem mem_bandMembers (data : List ℚ) (b : ℤ) (a : ℚ) :
    a ∈ bandMembers data b ↔ a ∈ data ∧ bandOf a = b := by
  rw [bandMembers, List.mem_filter]
  simp

/-- A uniform lower bound on a list bounds its sum from below. -/
theorem sum_ge_length_mul (lo : ℚ) :
    ∀ l : List ℚ, (∀ x ∈ l, lo ≤ x) → lo * l.length ≤ l.sum := by
  intro l
  induction l with
  | nil => intro _; simp
  | cons a t ih =>
    intro h
    simp only [List.sum_cons, List.length_cons]
    have ha := h a (List.mem_cons_self a t)
    have ht := ih (fun x hx => h x (List.mem_cons_of_mem a hx))
    push_cast
    calc lo * ((t.length : ℚ) + 1) = lo + lo * t.length := by ring
    _ ≤ a + t.sum := by linarith

/-- A strict uniform upper bound on a nonempty list bounds its sum
strictly from above. -/
theorem sum_lt_length_mul (hi : ℚ) :
    ∀ l : List ℚ, l ≠ [] → (∀ x ∈ l, x < hi) → l.sum < hi * l.length := by
  intro l
  induction l with
  | nil => intro hne _; exact absurd rfl hne
  | cons a t ih =>
    intro _ h
    simp only [List.sum_cons, List.length_cons]
    have ha := h a (List.mem_cons_self a t)
    by_cases ht0 : t = []
    · subst ht0
      simp only [List.sum_nil, List.length_nil]
      push_cast
      linarith
    · have ht := ih ht0 (fun x hx => h x (List.mem_cons_of_mem a hx))
      push_cast
      calc a + t.sum < hi + hi * t.length := by linarith
      _ = hi * ((t.length : ℚ) + 1) := by ring

/-- The mean of a nonempty list lies in any interval `[lo, hi)`
containing all its elements. -/
theorem listMean_mem_Ico (l : List ℚ) (hne : l ≠ []) (lo hi : ℚ)
    (hlo : ∀ x ∈ l, lo ≤ x) (hhi : ∀ x ∈ l, x < hi) :
    lo ≤ listMean l ∧ listMean l < hi := by
  have hlen : (0 : ℚ) < l.length := by
    exact_mod_cast List.length_pos.mpr hne
  rw [listMean]
  constructor
  · rw [le_div_iff₀ hlen]
    exact sum_ge_length_mul lo l hlo
  · rw [div_lt_iff₀ hlen]
    exact sum_lt_length_mul hi l hne hhi

/-- C9: for bands assigned by `floor(altitude / 50) * 50`, comparing two
nonempty band categories by mean altitude agrees exactly with comparing
them by the numeric lower bound of the band, so sorting the categories
ascending by mean altitude produces the same order as sorting them
ascending by the numeric lower bound. -/
theorem band_mean_order_iff_lower_bound (data : List ℚ) (b1 b2 : ℤ)
    (h1 : bandMembers data b1 ≠ []) (h2 : bandMembers data b2 ≠ []) :
    (listMean (bandMembers data b1) < listMean (bandMembers data b2) ↔
      b1 < b2) := by
  have hbnd : ∀ b : ℤ, ∀ x ∈ bandMembers data b,
      ((b : ℚ) ≤ x ∧ x < (b : ℚ) + 50) := by
    intro b x hx
    obtain ⟨-, hband⟩ := (mem_bandMembers data b x).mp hx
    have hb := bandOf_bounds x
    rw [hband] at hb
    exact hb
  have hm1 := listMean_mem_Ico _ h1 (b1 : ℚ) ((b1 : ℚ) + 50)
    (fun x hx => (hbnd b1 x hx).1) (fun x hx => (hbnd b1 x hx).2)
  have hm2 := listMean_mem_Ico _ h2 (b2 : ℚ) ((b2 : ℚ) + 50)
    (fun x hx => (hbnd b2 x hx).1) (fun x hx => (hbnd b2 x hx).2)
  have hd1 : (50 : ℤ) ∣ b1 := by
    obtain ⟨x, hx⟩ := List.exists_mem_of_ne_nil _ h1
    obtain ⟨-, hband⟩ := (mem_bandMembers data b1 x).mp hx
    exact ⟨⌊x / 50⌋, hband.symm⟩
  have hd2 : (50 : ℤ) ∣ b2 := by
    obtain ⟨x, hx⟩ := List.exists_mem_of_ne_nil _ h2
    obtain ⟨-, hband⟩ := (mem_bandMembers data b2 x).mp hx
    exact ⟨⌊x / 50⌋, hband.symm⟩
  constructor
  · intro hlt
    by_contra hle
    push_neg at hle
    rcases eq_or_lt_of_le hle with heq | hlt2
    · subst heq
      exact lt_irrefl _ hlt
    · have hstep : b2 + 50 ≤ b1 := by
        have hdvd : (50 : ℤ) ∣ (b1 - b2) := dvd_sub hd1 hd2
        have hpos : 0 < b1 - b2 := by omega
        have := Int.le_of_dvd hpos hdvd
        omega
      have hc1 : ((b2 : ℚ) + 50) ≤ (b1 : ℚ) := by exact_mod_cast hstep
      linarith [hm1.1, hm2.2]
  · intro hlt
    have hstep : b1 + 50 ≤ b2 := by
      have hdvd : (50 : ℤ) ∣ (b2 - b1) := dvd_sub hd2 hd1
      have hpos : 0 < b2 - b1 := by omega
      have := Int.le_of_dvd hpos hdvd
      omega
    have hc : ((b1 : ℚ) + 50) ≤ (b2 : ℚ) := by exact_mod_cast hstep
    linarith [hm1.2, hm2.1]

/-- Witness for C9: altitudes 10 and 60 fall in bands 0 and 50, whose
means compare like their lower bounds. -/
theorem band_mean_order_iff_lower_bound_witness :
    (listMean (bandMembers [10, 60] 0) < listMean (bandMembers [10, 60] 50) ↔
      (0 : ℤ) < 50) := by
  have h10 : bandOf 10 = 0 := by rw [bandOf]; norm_num
  have h60 : bandOf 60 = 50 := by rw [bandOf]; norm_num
  exact band_mean_order_iff_lower_bound [10, 60] 0 50
    (List.ne_nil_of_mem ((mem_bandMembers [10, 60] 0 10).mpr ⟨by simp, h10⟩))
    (List.ne_nil_of_mem ((mem_bandMembers [10, 60] 50 60).mpr ⟨by simp, h60⟩))

end Cims
